import Mathlib

/-!
Verification development for the universal-regions analysis of the borrow
checker (src/librustc_mir/borrow_check/nll/universal_regions.rs).

Region identities (RegionVid) are embedded as natural numbers.  Fallible
code paths (assertion failures, unwrap panics, span_bug / bug calls) are
embedded as Option results, where none marks a fatal internal error.

The TransitiveRelation data structure is not part of the sources here
(only its caller is), so its query operations are modelled from the spec:
edge insertion records a direct idempotent fact, and reachability queries
behave as though over the transitive closure of the direct edges.
-/

/-- Model of ty::Region restricted to the shapes distinguished by
UniversalRegionIndices::to_region_vid: the static region, early-bound
regions (identified by an abstract parameter number), regions already in
identity form (ReVar), and every other shape (late-bound, free, scope,
skolemized, ...), which the source rejects with a fatal internal error. -/
inductive Region where
  | ReStatic : Region
  | ReEarlyBound : Nat → Region
  | ReVar : Nat → Region
  | ReOther : Nat → Region
deriving DecidableEq, Repr

/-- Model of GenericKind: a type parameter or an associated-type
projection, identified abstractly by number. -/
inductive GenericKind where
  | Param : Nat → GenericKind
  | Projection : Nat → GenericKind
deriving DecidableEq, Repr

/-- Model of rustc::infer::outlives::bounds::OutlivesBound, the three fact
shapes consumed by add_outlives_bounds. -/
inductive OutlivesBound where
  | RegionSubRegion : Region → Region → OutlivesBound
  | RegionSubParam : Region → Nat → OutlivesBound
  | RegionSubProjection : Region → Nat → OutlivesBound
deriving DecidableEq, Repr

/-- Modelled from the spec: the outlives-relation engine is a directed
graph over region identities storing the directly inserted edges; queries
behave as though over the transitive closure. -/
structure TransitiveRelation where
  edges : List (Nat × Nat)
deriving DecidableEq, Repr

/-- All endpoints mentioned by a list of directed edges. -/
def nodesOf (es : List (Nat × Nat)) : List Nat :=
  (es.map Prod.fst ++ es.map Prod.snd).dedup

/-- All ordered pairs over a node list; the universe in which relClosure
iteration lives. -/
def allPairs (ns : List Nat) : List (Nat × Nat) :=
  (ns.map (fun a => ns.map (fun b => (a, b)))).flatten

/-- One relClosure step: keep the current edges and add every composite of
two consecutive edges, removing duplicates. -/
def closeStep (es : List (Nat × Nat)) : List (Nat × Nat) :=
  (es ++ (es.map (fun e => es.filterMap
      (fun f => if e.2 = f.1 then some (e.1, f.2) else none))).flatten).dedup

/-- Iterate closeStep until a fixpoint is reached or the fuel runs out. -/
def closeIter : Nat → List (Nat × Nat) → List (Nat × Nat)
  | 0, es => es
  | Nat.succ k, es =>
    if (closeStep es).length = es.length then es else closeIter k (closeStep es)

/-- Modelled from the spec: the transitive closure of a set of direct
edges, computed by iterating closeStep with enough fuel to reach the
fixpoint (the closure lives inside the finite pair universe). -/
def relClosure (es0 : List (Nat × Nat)) : List (Nat × Nat) :=
  let es := es0.dedup
  closeIter ((allPairs (nodesOf es)).length + 1) es

theorem mem_allPairs {ns : List Nat} {a b : Nat} (ha : a ∈ ns) (hb : b ∈ ns) :
    (a, b) ∈ allPairs ns := by
  unfold allPairs
  simp only [List.mem_flatten, List.mem_map]
  exact ⟨ns.map (fun b => (a, b)), ⟨a, ha, rfl⟩, by simp [hb]⟩

theorem mem_closeStep_of_mem {es : List (Nat × Nat)} {p : Nat × Nat}
    (h : p ∈ es) : p ∈ closeStep es := by
  unfold closeStep
  simp only [List.mem_dedup, List.mem_append]
  exact Or.inl h

theorem comp_mem_closeStep {es : List (Nat × Nat)} {a b c : Nat}
    (h1 : (a, b) ∈ es) (h2 : (b, c) ∈ es) : (a, c) ∈ closeStep es := by
  unfold closeStep
  simp only [List.mem_dedup, List.mem_append, List.mem_flatten, List.mem_map]
  refine Or.inr ⟨_, ⟨(a, b), h1, rfl⟩, ?_⟩
  simp only [List.mem_filterMap]
  exact ⟨(b, c), h2, by simp⟩

theorem nodup_closeStep (es : List (Nat × Nat)) : (closeStep es).Nodup := by
  unfold closeStep
  exact List.nodup_dedup _

theorem closeStep_endpoints {ns : List Nat} {es : List (Nat × Nat)}
    (h : ∀ p ∈ es, p.1 ∈ ns ∧ p.2 ∈ ns) :
    ∀ p ∈ closeStep es, p.1 ∈ ns ∧ p.2 ∈ ns := by
  intro p hp
  unfold closeStep at hp
  simp only [List.mem_dedup, List.mem_append, List.mem_flatten, List.mem_map] at hp
  rcases hp with hp | ⟨l, ⟨e, he, rfl⟩, hpl⟩
  · exact h p hp
  · simp only [List.mem_filterMap] at hpl
    rcases hpl with ⟨f, hf, hif⟩
    by_cases hef : e.2 = f.1
    · simp only [hef, if_pos rfl] at hif
      cases hif
      exact ⟨(h e he).1, (h f hf).2⟩
    · simp [hef] at hif

theorem nodup_subset_length_le {l m : List (Nat × Nat)}
    (hnd : l.Nodup) (hsub : l ⊆ m) : l.length ≤ m.length := by
  have h1 : l.toFinset.card = l.length := List.toFinset_card_of_nodup hnd
  have h2 : l.toFinset ⊆ m.toFinset := by
    intro x hx
    rw [List.mem_toFinset] at hx ⊢
    exact hsub hx
  calc l.length = l.toFinset.card := h1.symm
    _ ≤ m.toFinset.card := Finset.card_le_card h2
    _ ≤ m.length := m.toFinset_card_le

theorem subset_rev_of_nodup_length_eq {l m : List (Nat × Nat)}
    (hl : l.Nodup) (hm : m.Nodup) (hsub : l ⊆ m)
    (hlen : m.length ≤ l.length) : m ⊆ l := by
  have h1 : l.toFinset ⊆ m.toFinset := by
    intro x hx
    rw [List.mem_toFinset] at hx ⊢
    exact hsub hx
  have h2 : m.toFinset.card ≤ l.toFinset.card := by
    rw [List.toFinset_card_of_nodup hl, List.toFinset_card_of_nodup hm]
    exact hlen
  have h3 : l.toFinset = m.toFinset := Finset.eq_of_subset_of_card_le h1 h2
  intro x hx
  have : x ∈ m.toFinset := List.mem_toFinset.mpr hx
  rw [← h3, List.mem_toFinset] at this
  exact this

theorem subset_closeIter (k : Nat) : ∀ es : List (Nat × Nat), es ⊆ closeIter k es := by
  induction k with
  | zero => intro es; exact fun _ h => h
  | succ k ih =>
    intro es
    unfold closeIter
    by_cases hlen : (closeStep es).length = es.length
    · simp only [hlen, if_pos rfl]
      exact fun _ h => h
    · simp only [hlen, if_neg hlen]
      intro p hp
      exact ih (closeStep es) (mem_closeStep_of_mem hp)

theorem closeIter_fix {ns : List Nat} (k : Nat) :
    ∀ es : List (Nat × Nat), es.Nodup → (∀ p ∈ es, p.1 ∈ ns ∧ p.2 ∈ ns) →
    (allPairs ns).length + 1 ≤ k + es.length →
    closeStep (closeIter k es) ⊆ closeIter k es := by
  induction k with
  | zero =>
    intro es hnd hend hk
    exfalso
    have hsub : es ⊆ allPairs ns := by
      intro p hp
      have := hend p hp
      exact mem_allPairs this.1 this.2
    have := nodup_subset_length_le hnd hsub
    omega
  | succ k ih =>
    intro es hnd hend hk
    unfold closeIter
    by_cases hlen : (closeStep es).length = es.length
    · simp only [hlen, if_pos rfl]
      have h1 : es ⊆ closeStep es := fun _ h => mem_closeStep_of_mem h
      exact subset_rev_of_nodup_length_eq hnd (nodup_closeStep es) h1 (le_of_eq hlen)
    · simp only [hlen, if_neg hlen]
      have h1 : es ⊆ closeStep es := fun _ h => mem_closeStep_of_mem h
      have h2 : es.length ≤ (closeStep es).length := nodup_subset_length_le hnd h1
      have h3 : es.length + 1 ≤ (closeStep es).length := by omega
      exact ih (closeStep es) (nodup_closeStep es) (closeStep_endpoints hend) (by omega)

theorem closure_fix (es0 : List (Nat × Nat)) :
    closeStep (relClosure es0) ⊆ relClosure es0 := by
  have hend : ∀ p ∈ es0.dedup, p.1 ∈ nodesOf es0.dedup ∧ p.2 ∈ nodesOf es0.dedup := by
    intro p hp
    have hp' : p ∈ es0 := List.mem_dedup.mp hp
    constructor
    · unfold nodesOf
      simp only [List.mem_dedup, List.mem_append, List.mem_map]
      exact Or.inl ⟨p, hp', rfl⟩
    · unfold nodesOf
      simp only [List.mem_dedup, List.mem_append, List.mem_map]
      exact Or.inr ⟨p, hp', rfl⟩
  unfold relClosure
  exact closeIter_fix _ _ (List.nodup_dedup _) hend (by omega)

theorem mem_closure_of_mem {es0 : List (Nat × Nat)} {p : Nat × Nat}
    (h : p ∈ es0) : p ∈ relClosure es0 := by
  unfold relClosure
  exact subset_closeIter _ _ (List.mem_dedup.mpr h)

theorem closure_comp {es0 : List (Nat × Nat)} {a b c : Nat}
    (h1 : (a, b) ∈ relClosure es0) (h2 : (b, c) ∈ relClosure es0) :
    (a, c) ∈ relClosure es0 :=
  closure_fix es0 (comp_mem_closeStep h1 h2)

/-- Modelled from the spec: edge insertion records a direct fact and is
idempotent (inserting an existing edge leaves the relation unchanged). -/
def TransitiveRelation.add (tr : TransitiveRelation) (a b : Nat) : TransitiveRelation :=
  if (a, b) ∈ tr.edges then tr else ⟨tr.edges ++ [(a, b)]⟩

/-- Modelled from the spec: the reachability query answers whether the
pair lies in the transitive closure of the directly inserted edges. -/
def TransitiveRelation.contains (tr : TransitiveRelation) (a b : Nat) : Bool :=
  decide ((a, b) ∈ relClosure tr.edges)

theorem contains_trans {tr : TransitiveRelation} {a b c : Nat}
    (h1 : tr.contains a b = true) (h2 : tr.contains b c = true) :
    tr.contains a c = true := by
  unfold TransitiveRelation.contains at *
  rw [decide_eq_true_iff] at *
  exact closure_comp h1 h2

theorem contains_of_mem_edges {tr : TransitiveRelation} {a b : Nat}
    (h : (a, b) ∈ tr.edges) : tr.contains a b = true := by
  unfold TransitiveRelation.contains
  rw [decide_eq_true_iff]
  exact mem_closure_of_mem h

/-- Modelled from the spec: the nodes known to the relation engine. -/
def TransitiveRelation.elements (tr : TransitiveRelation) : List Nat :=
  nodesOf tr.edges

/-- True when x lies strictly above a in the reachability preorder: a
reaches x but x does not reach a back. -/
def strictAbove (tr : TransitiveRelation) (a x : Nat) : Bool :=
  tr.contains a x && !(tr.contains x a)

/-- The nodes strictly above a. -/
def aboveSet (tr : TransitiveRelation) (a : Nat) : List Nat :=
  tr.elements.filter (fun x => strictAbove tr a x)

/-- How many nodes lie strictly above a; the well-founded measure that
makes the parents expansion of the bound search terminate. -/
def heightOf (tr : TransitiveRelation) (a : Nat) : Nat :=
  (aboveSet tr a).length

/-- Modelled from the spec: the immediate direct parents of a node are
the minimal elements among the nodes strictly above it. -/
def TransitiveRelation.parents (tr : TransitiveRelation) (a : Nat) : List Nat :=
  (aboveSet tr a).filter (fun x => (aboveSet tr a).all
    (fun y => !(tr.contains y x && !(tr.contains x y))))

theorem nodup_elements (tr : TransitiveRelation) : tr.elements.Nodup := by
  unfold TransitiveRelation.elements nodesOf
  exact List.nodup_dedup _

theorem strictAbove_mono {tr : TransitiveRelation} {a x z : Nat}
    (hax : strictAbove tr a x = true) (hxz : strictAbove tr x z = true) :
    strictAbove tr a z = true := by
  unfold strictAbove at *
  rw [Bool.and_eq_true, Bool.not_eq_true'] at hax hxz
  rw [Bool.and_eq_true, Bool.not_eq_true']
  refine ⟨contains_trans hax.1 hxz.1, ?_⟩
  by_contra hza
  rw [Bool.not_eq_false] at hza
  have hzx : tr.contains z x = true := contains_trans hza hax.1
  rw [hxz.2] at hzx
  simp at hzx

theorem strictAbove_self_false (tr : TransitiveRelation) (x : Nat) :
    strictAbove tr x x = false := by
  unfold strictAbove
  cases hc : tr.contains x x <;> simp [hc]

theorem filter_length_lt {l : List Nat} {p q : Nat → Bool}
    (hnd : l.Nodup) (himp : ∀ z ∈ l, p z = true → q z = true)
    {a : Nat} (ha : a ∈ l) (hqa : q a = true) (hpa : p a = false) :
    (l.filter p).length < (l.filter q).length := by
  have hndp : (l.filter p).Nodup := hnd.filter p
  have hndq : (l.filter q).Nodup := hnd.filter q
  have hsub : (l.filter p).toFinset ⊆ (l.filter q).toFinset := by
    intro x hx
    rw [List.mem_toFinset, List.mem_filter] at hx ⊢
    exact ⟨hx.1, himp x hx.1 hx.2⟩
  have hss : (l.filter p).toFinset ⊂ (l.filter q).toFinset := by
    rw [Finset.ssubset_iff_of_subset hsub]
    refine ⟨a, ?_, ?_⟩
    · rw [List.mem_toFinset, List.mem_filter]
      exact ⟨ha, hqa⟩
    · rw [List.mem_toFinset, List.mem_filter]
      intro hmem
      rw [hpa] at hmem
      simp at hmem
  have hcard := Finset.card_lt_card hss
  rwa [List.toFinset_card_of_nodup hndp, List.toFinset_card_of_nodup hndq] at hcard

theorem mem_parents {tr : TransitiveRelation} {a x : Nat}
    (h : x ∈ tr.parents a) : x ∈ tr.elements ∧ strictAbove tr a x = true := by
  unfold TransitiveRelation.parents at h
  have h1 := (List.mem_filter.mp h).1
  unfold aboveSet at h1
  have h2 := List.mem_filter.mp h1
  exact ⟨h2.1, h2.2⟩

theorem heightOf_parents_lt {tr : TransitiveRelation} {a x : Nat}
    (h : x ∈ tr.parents a) : heightOf tr x < heightOf tr a := by
  obtain ⟨hel, hsa⟩ := mem_parents h
  unfold heightOf aboveSet
  refine filter_length_lt (nodup_elements tr) ?_ hel hsa ?_
  · intro z _ hpz
    exact strictAbove_mono hsa hpz
  · exact strictAbove_self_false tr x

theorem parents_length_le (tr : TransitiveRelation) (a : Nat) :
    (tr.parents a).length ≤ tr.elements.length := by
  unfold TransitiveRelation.parents aboveSet
  exact le_trans (List.length_filter_le _ _) (List.length_filter_le _ _)

/-- Modelled from the spec: the reachability preorder, reachable or equal. -/
def relLE (tr : TransitiveRelation) (a b : Nat) : Bool :=
  tr.contains a b || a == b

/-- Modelled from the spec: the common ancestors of a candidate set, the
nodes that every candidate reaches or equals. -/
def commonAncestors (tr : TransitiveRelation) (s : List Nat) : List Nat :=
  (tr.elements ++ s).dedup.filter (fun x => s.all (fun c => relLE tr c x))

/-- Modelled from the spec: the minimal elements of the common-ancestor
set of a candidate set. -/
def minimalCommonAncestors (tr : TransitiveRelation) (s : List Nat) : List Nat :=
  (commonAncestors tr s).filter (fun x => (commonAncestors tr s).all
    (fun y => !(relLE tr y x && !(relLE tr x y))))

/-- Modelled from the spec: the mutual immediate postdominator of a set
of candidate nodes: no result for the empty set, the node itself for a
singleton, otherwise the unique minimal common ancestor when exactly one
exists, and no result otherwise. -/
def TransitiveRelation.mutual_immediate_postdominator
    (tr : TransitiveRelation) (s : List Nat) : Option Nat :=
  match s with
  | [] => none
  | [x] => some x
  | _ =>
    match minimalCommonAncestors tr s with
    | [m] => some m
    | _ => none

/-- The pair of mirrored graphs storing the known outlives relations. -/
structure UniversalRegionRelations where
  outlives : TransitiveRelation
  inverse_outlives : TransitiveRelation
deriving DecidableEq, Repr

/-- Records in the outlives relation (and the inverse relation) that
fr_a outlives fr_b. -/
def UniversalRegionRelations.relate_universal_regions
    (rs : UniversalRegionRelations) (fr_a fr_b : Nat) : UniversalRegionRelations :=
  ⟨rs.outlives.add fr_a fr_b, rs.inverse_outlives.add fr_b fr_a⟩

/-- The map from nameable regions (the static region and early-bound
regions) to their assigned identities. -/
structure UniversalRegionIndices where
  indices : List (Region × Nat)
deriving DecidableEq, Repr

/-- Converts r into a region identity: a ReVar is translated to its own
identity, the static region and early-bound regions go through the
indices map (none on a missing entry embeds the unwrap panic), and every
other region shape is a fatal internal error (none embeds the bug call). -/
def UniversalRegionIndices.to_region_vid
    (m : UniversalRegionIndices) (r : Region) : Option Nat :=
  match r with
  | Region.ReEarlyBound _ | Region.ReStatic =>
    (m.indices.find? (fun kv => kv.1 == r)).map Prod.snd
  | Region.ReVar v => some v
  | Region.ReOther _ => none

/-- The three-way provenance classification of a universal region. -/
inductive RegionClassification where
  | Global : RegionClassification
  | External : RegionClassification
  | Local : RegionClassification
deriving DecidableEq, Repr

def FIRST_GLOBAL_INDEX : Nat := 0

/-- The result snapshot produced by the builder. -/
structure UniversalRegions where
  indices : UniversalRegionIndices
  fr_static : Nat
  first_extern_index : Nat
  first_local_index : Nat
  num_universals : Nat
  region_bound_pairs : List (Region × GenericKind)
  relations : UniversalRegionRelations
deriving DecidableEq, Repr

/-- True if r is a member of this set of universal regions. -/
def UniversalRegions.is_universal_region (ur : UniversalRegions) (r : Nat) : Bool :=
  decide (FIRST_GLOBAL_INDEX ≤ r ∧ r < ur.num_universals)

/-- Classifies r as a universal region, returning none if it is not a
member of this set of universal regions. -/
def UniversalRegions.region_classification
    (ur : UniversalRegions) (r : Nat) : Option RegionClassification :=
  if FIRST_GLOBAL_INDEX ≤ r ∧ r < ur.first_extern_index then
    some RegionClassification.Global
  else if ur.first_extern_index ≤ r ∧ r < ur.first_local_index then
    some RegionClassification.External
  else if ur.first_local_index ≤ r ∧ r < ur.num_universals then
    some RegionClassification.Local
  else
    none

/-- True if r is classified as a global region. -/
def UniversalRegions.is_global_free_region (ur : UniversalRegions) (r : Nat) : Bool :=
  ur.region_classification r == some RegionClassification.Global

/-- True if r is classified as an external region. -/
def UniversalRegions.is_extern_free_region (ur : UniversalRegions) (r : Nat) : Bool :=
  ur.region_classification r == some RegionClassification.External

/-- True if r is classified as a local region. -/
def UniversalRegions.is_local_free_region (ur : UniversalRegions) (r : Nat) : Bool :=
  ur.region_classification r == some RegionClassification.Local

/-- The number of universal regions created in any category. -/
def UniversalRegions.len (ur : UniversalRegions) : Nat :=
  ur.num_universals

/-- The number of global plus external universal regions. -/
def UniversalRegions.num_global_and_external_regions (ur : UniversalRegions) : Nat :=
  ur.first_local_index

/-- True if fr1 is known to outlive fr2. -/
def UniversalRegions.outlives (ur : UniversalRegions) (fr1 fr2 : Nat) : Bool :=
  ur.relations.outlives.contains fr1 fr2

/-- See UniversalRegionIndices.to_region_vid. -/
def UniversalRegions.to_region_vid (ur : UniversalRegions) (r : Region) : Option Nat :=
  ur.indices.to_region_vid r

/-- The well-founded measure of the bound-search worklist: each queued
node weighs exponentially in its height, so replacing a node by its
(strictly lower) parents shrinks the total. -/
def queueMeasure (tr : TransitiveRelation) (queue : List Nat) : Nat :=
  (queue.map (fun v => (tr.elements.length + 1) ^ heightOf tr v)).sum

theorem queueMeasure_parents_lt (rel : TransitiveRelation) (fr : Nat) :
    queueMeasure rel (rel.parents fr) <
      (rel.elements.length + 1) ^ heightOf rel fr := by
  by_cases hne : rel.parents fr = []
  · rw [hne]
    unfold queueMeasure
    simp only [List.map_nil, List.sum_nil]
    exact pow_pos (by omega) _
  · obtain ⟨x, hx⟩ := List.exists_mem_of_ne_nil _ hne
    have hh : 1 ≤ heightOf rel fr := by
      have h1 : x ∈ aboveSet rel fr := by
        unfold TransitiveRelation.parents at hx
        exact (List.mem_filter.mp hx).1
      unfold heightOf
      exact List.length_pos_of_mem h1
    have hterm : ∀ y ∈ (rel.parents fr).map
        (fun v => (rel.elements.length + 1) ^ heightOf rel v),
        y ≤ (rel.elements.length + 1) ^ (heightOf rel fr - 1) := by
      intro y hy
      rcases List.mem_map.mp hy with ⟨v, hv, rfl⟩
      refine Nat.pow_le_pow_right (by omega) ?_
      have := heightOf_parents_lt hv
      omega
    have hsum := List.sum_le_card_nsmul _ _ hterm
    rw [List.length_map, smul_eq_mul] at hsum
    have hlen := parents_length_le rel fr
    have hpow : heightOf rel fr = (heightOf rel fr - 1) + 1 := by omega
    calc queueMeasure rel (rel.parents fr)
        ≤ (rel.parents fr).length * (rel.elements.length + 1) ^ (heightOf rel fr - 1) :=
          hsum
      _ ≤ rel.elements.length * (rel.elements.length + 1) ^ (heightOf rel fr - 1) :=
          Nat.mul_le_mul_right _ hlen
      _ < (rel.elements.length + 1) * (rel.elements.length + 1) ^ (heightOf rel fr - 1) := by
          have hp : 0 < (rel.elements.length + 1) ^ (heightOf rel fr - 1) :=
            pow_pos (by omega) _
          exact Nat.mul_lt_mul_of_lt_of_le (by omega) (le_refl _) hp
      _ = (rel.elements.length + 1) ^ heightOf rel fr := by
          conv_rhs => rw [hpow]
          rw [pow_succ, Nat.mul_comm]

theorem queueMeasure_cons (rel : TransitiveRelation) (v : Nat) (l : List Nat) :
    queueMeasure rel (v :: l) =
      (rel.elements.length + 1) ^ heightOf rel v + queueMeasure rel l := by
  unfold queueMeasure
  rw [List.map_cons, List.sum_cons]

theorem queueMeasure_append (rel : TransitiveRelation) (l1 l2 : List Nat) :
    queueMeasure rel (l1 ++ l2) = queueMeasure rel l1 + queueMeasure rel l2 := by
  unfold queueMeasure
  rw [List.map_append, List.sum_append]

/-- The worklist of non_local_bound: pop a region; if it is not local,
collect it into the candidate accumulator; otherwise expand it into its
direct parents.  The source uses a Vec as a stack; the embedding pops at
the head and pushes the parents at the head, walking the same search
tree.  Termination: parents are strictly higher than the popped node. -/
def nonLocalBoundLoop (ur : UniversalRegions) (rel : TransitiveRelation) :
    List Nat → List Nat → List Nat
  | [], external_parents => external_parents
  | fr :: rest, external_parents =>
    if ur.is_local_free_region fr = true then
      nonLocalBoundLoop ur rel (rel.parents fr ++ rest) external_parents
    else
      nonLocalBoundLoop ur rel rest (external_parents ++ [fr])
termination_by queue _ => queueMeasure rel queue
decreasing_by
  · rw [queueMeasure_append, queueMeasure_cons]
    have := queueMeasure_parents_lt rel fr
    omega
  · rw [queueMeasure_cons]
    have : 0 < (rel.elements.length + 1) ^ heightOf rel fr := pow_pos (by omega) _
    omega

/-- Helper for non_local_upper_bound and non_local_lower_bound:
repeatedly expand local regions into their parents, then reduce the
collected non-local candidates through the mutual immediate
postdominator; a local postdominator yields no result. -/
def UniversalRegions.non_local_bound
    (ur : UniversalRegions) (relation : TransitiveRelation) (fr0 : Nat) : Option Nat :=
  let external_parents := nonLocalBoundLoop ur relation [fr0] []
  let post_dom := relation.mutual_immediate_postdominator external_parents
  post_dom.bind (fun pd =>
    if !(ur.is_local_free_region pd) then some pd else none)

/-- Finds an upper bound for fr that is not local; falls back to the
static region when the search yields no result. -/
def UniversalRegions.non_local_upper_bound (ur : UniversalRegions) (fr : Nat) : Nat :=
  (ur.non_local_bound ur.relations.inverse_outlives fr).getD ur.fr_static

/-- Finds a lower bound for fr that is not local, when one exists. -/
def UniversalRegions.non_local_lower_bound (ur : UniversalRegions) (fr : Nat) : Option Nat :=
  ur.non_local_bound ur.relations.outlives fr

/-- The abstracted inputs of one construction: the early-bound parameter
numbers declared on the item (the regions of the identity substitution,
supplied by the signature resolver; each gets one freshly allocated
external identity when the free regions of the defining type are
replaced), the number of late-bound regions liberated from the
signature, and the outlives facts gathered by the explicit-bounds pass
and the implied-bounds passes. -/
structure BuildInput where
  params : List Nat
  numLocal : Nat
  facts : List OutlivesBound
deriving DecidableEq, Repr

/-- Builds the indices map: the static region maps to the static
identity, and the i-th early-bound parameter maps to the identity
allocated for it while replacing the free regions of the defining type
(identity i + 1, right after the static region). -/
def compute_indices (fr_static : Nat) (params : List Nat) : UniversalRegionIndices :=
  ⟨(Region.ReStatic, fr_static) ::
    params.enum.map (fun pi => (Region.ReEarlyBound pi.2, pi.1 + 1))⟩

/-- Registers the OutlivesBound items in the outlives relation and the
region-bound-pairs listing.  A region-sub-region bound, r1 <= r2, is
stored as r2 outlives r1; parameter and projection bounds are appended
verbatim under their original region.  A failing region translation (an
unwrap panic in the source) aborts construction. -/
def add_outlives_bounds (indices : UniversalRegionIndices) :
    UniversalRegionRelations → List (Region × GenericKind) → List OutlivesBound →
    Option (UniversalRegionRelations × List (Region × GenericKind))
  | rs, rbp, [] => some (rs, rbp)
  | rs, rbp, b :: rest =>
    match b with
    | OutlivesBound.RegionSubRegion r1 r2 =>
      match indices.to_region_vid r1, indices.to_region_vid r2 with
      | some v1, some v2 =>
        add_outlives_bounds indices (rs.relate_universal_regions v2 v1) rbp rest
      | _, _ => none
    | OutlivesBound.RegionSubParam r_a param_b =>
      add_outlives_bounds indices rs (rbp ++ [(r_a, GenericKind.Param param_b)]) rest
    | OutlivesBound.RegionSubProjection r_a projection_b =>
      add_outlives_bounds indices rs
        (rbp ++ [(r_a, GenericKind.Projection projection_b)]) rest

/-- The construction pass: allocate the static region (the first
identity, 0), record the external boundary, allocate one external
identity per region free in the defining type, build the indices map,
record the local boundary and the liberated late-bound identities,
insert the gathered outlives facts, and close the relation under
reflexivity and static dominance.  The allocation counter of the
inference context is threaded explicitly: identities are handed out in
order 0, 1, 2, and so on, so the three boundaries are determined by the
input counts. -/
def build (inp : BuildInput) : Option UniversalRegions :=
  let fr_static : Nat := FIRST_GLOBAL_INDEX
  let first_extern_index : Nat := 1
  let first_local_index : Nat := first_extern_index + inp.params.length
  let num_universals : Nat := first_local_index + inp.numLocal
  let indices := compute_indices fr_static inp.params
  match add_outlives_bounds indices ⟨⟨[]⟩, ⟨[]⟩⟩ [] inp.facts with
  | none => none
  | some (rels0, rbp) =>
    let rels := (List.range num_universals).foldl
      (fun rs fr =>
        (rs.relate_universal_regions fr fr).relate_universal_regions fr_static fr)
      rels0
    some ⟨indices, fr_static, first_extern_index, first_local_index,
      num_universals, rbp, rels⟩

/-- Model of the type shapes distinguished by the defining-type and
signature resolver.  Region content inside types is not tracked; each
shape carries exactly what the resolver reads from it.  TyClosure
carries the environment type and the inputs-and-output list of the
closure signature; TyGenerator carries its captured substitution
(abstracted as a list of component types) and its declared return type;
TyFnDef carries the inputs-and-output list of its signature. -/
inductive Ty where
  | TyFnDef : List Ty → Ty
  | TyClosure : Ty → List Ty → Ty
  | TyGenerator : List Ty → Ty → Ty
  | TyTuple : List Ty → Ty
  | TyUint : Ty
  | TyOther : Ty

/-- Resolves the bound inputs-and-output sequence from the defining
type.  For a closure, the signature carries one tuplized input that is
flattened, and the environment type is spliced in front; for a
generator, the sequence is exactly the defining type and the return
type; for a function item, the signature; for a constant-like TyUint
body, the single output.  An unrecognized shape, an empty closure
signature, a closure input count other than one, or a non-tuple closure
input is a fatal internal error. -/
def compute_inputs_and_output (defining_ty : Ty) : Option (List Ty) :=
  match defining_ty with
  | Ty.TyClosure env sig =>
    match sig.getLast? with
    | none => none
    | some output =>
      match sig.dropLast with
      | [Ty.TyTuple inputs] => some (env :: (inputs ++ [output]))
      | _ => none
  | Ty.TyGenerator substs ret => some [Ty.TyGenerator substs ret, ret]
  | Ty.TyFnDef sig => some sig
  | Ty.TyUint => some [defining_ty]
  | _ => none

/-- Given the free-region traversal of a closure type (the regions
visited by for_each_free_region, in order) and the expected variable
count, produce the mapping vector: the static region at identity 0
followed by the free regions.  A length mismatch is a fatal internal
error (the assert_eq in the source). -/
def closure_mapping (closure_ty_free_regions : List Region)
    (expected_num_vars : Nat) : Option (List Region) :=
  let region_mapping := Region.ReStatic :: closure_ty_free_regions
  if region_mapping.length = expected_num_vars then some region_mapping else none

/-- Apply a sequence of relate operations, as the construction does. -/
def apply_relates (rs : UniversalRegionRelations) (ops : List (Nat × Nat)) :
    UniversalRegionRelations :=
  ops.foldl (fun acc op => acc.relate_universal_regions op.1 op.2) rs

/-- Both graphs record mirrored direct edges. -/
def edgeSymmetric (rs : UniversalRegionRelations) : Prop :=
  ∀ a b : Nat, (a, b) ∈ rs.outlives.edges ↔ (b, a) ∈ rs.inverse_outlives.edges

theorem mem_add_iff {tr : TransitiveRelation} {p : Nat × Nat} (c d : Nat) :
    p ∈ (tr.add c d).edges ↔ p ∈ tr.edges ∨ p = (c, d) := by
  unfold TransitiveRelation.add
  by_cases h : (c, d) ∈ tr.edges
  · rw [if_pos h]
    constructor
    · exact Or.inl
    · rintro (hp | rfl)
      · exact hp
      · exact h
  · rw [if_neg h]
    simp [List.mem_append]

theorem mem_add_of_mem {tr : TransitiveRelation} {p : Nat × Nat}
    (h : p ∈ tr.edges) (a b : Nat) : p ∈ (tr.add a b).edges :=
  (mem_add_iff a b).mpr (Or.inl h)

theorem mem_add_self (tr : TransitiveRelation) (a b : Nat) :
    (a, b) ∈ (tr.add a b).edges :=
  (mem_add_iff a b).mpr (Or.inr rfl)

theorem relate_preserves_symm {rs : UniversalRegionRelations}
    (h : edgeSymmetric rs) (c d : Nat) :
    edgeSymmetric (rs.relate_universal_regions c d) := by
  intro a b
  unfold UniversalRegionRelations.relate_universal_regions
  rw [mem_add_iff, mem_add_iff, h a b]
  constructor
  · rintro (hp | hp)
    · exact Or.inl hp
    · rw [Prod.ext_iff] at hp ⊢
      exact Or.inr ⟨hp.2, hp.1⟩
  · rintro (hp | hp)
    · exact Or.inl hp
    · rw [Prod.ext_iff] at hp ⊢
      exact Or.inr ⟨hp.2, hp.1⟩

theorem apply_relates_symm {rs : UniversalRegionRelations}
    (h : edgeSymmetric rs) (ops : List (Nat × Nat)) :
    edgeSymmetric (apply_relates rs ops) := by
  induction ops generalizing rs with
  | nil => exact h
  | cons op rest ih =>
    unfold apply_relates at *
    rw [List.foldl_cons]
    exact ih (relate_preserves_symm h op.1 op.2)

theorem edgeSymmetric_empty : edgeSymmetric ⟨⟨[]⟩, ⟨[]⟩⟩ := by
  intro a b
  simp

/-- C4: for all identities a, b, c, if the outlives query holds for
(a, b) and for (b, c), then it holds for (a, c): the query behaves as
the transitive closure of the directly inserted edges. -/
theorem c4_outlives_transitive (ur : UniversalRegions) (a b c : Nat)
    (h1 : ur.outlives a b = true) (h2 : ur.outlives b c = true) :
    ur.outlives a c = true := by
  unfold UniversalRegions.outlives at *
  exact contains_trans h1 h2

/-- C5: non_local_lower_bound returns no result or a non-Local identity,
never a Local one; in particular a Local mutual immediate postdominator
of the collected candidate set makes the search report no result. -/
theorem c5_lower_bound_never_local (ur : UniversalRegions) (fr : Nat) :
    (ur.non_local_lower_bound fr).all
      (fun p => !(ur.is_local_free_region p)) = true ∧
    ((ur.relations.outlives.mutual_immediate_postdominator
        (nonLocalBoundLoop ur ur.relations.outlives [fr] [])).all
      (fun p => !(ur.is_local_free_region p) ||
        (ur.non_local_lower_bound fr).isNone)) = true := by
  simp only [UniversalRegions.non_local_lower_bound, UniversalRegions.non_local_bound]
  cases hpd : ur.relations.outlives.mutual_immediate_postdominator
      (nonLocalBoundLoop ur ur.relations.outlives [fr] []) with
  | none => simp
  | some p =>
    cases hl : ur.is_local_free_region p with
    | false => simp [hl]
    | true => simp [hl]

/-- C6: closure_mapping returns the static region as identity 0 followed
by the free regions of the traversal, exactly when the requested count
matches; any count mismatch is a fatal internal error, never a silently
truncated or padded result. -/
theorem c6_closure_mapping_exact (frs : List Region) (n : Nat) :
    closure_mapping frs n =
      (if frs.length + 1 = n then some (Region.ReStatic :: frs) else none) ∧
    (closure_mapping frs n).all
      (fun m => (m.length == n) && (m.head? == some Region.ReStatic)) = true := by
  unfold closure_mapping
  constructor
  · simp only [List.length_cons]
  · simp only [List.length_cons]
    split_ifs with h1
    · simp [h1]
    · simp

/-- C9: for every generator, the resolved inputs-and-output sequence is
exactly the defining type followed by the declared return type, two
entries, regardless of the captured substitution. -/
theorem c9_generator_sequence (substs : List Ty) (ret : Ty) :
    compute_inputs_and_output (Ty.TyGenerator substs ret) =
      some [Ty.TyGenerator substs ret, ret] ∧
    (compute_inputs_and_output (Ty.TyGenerator substs ret)).map List.length =
      some 2 :=
  ⟨rfl, rfl⟩

theorem build_some_elim {inp : BuildInput} {ur : UniversalRegions}
    (h : build inp = some ur) :
    ur.fr_static = 0 ∧ ur.first_extern_index = 1 ∧
    ur.first_local_index = 1 + inp.params.length ∧
    ur.num_universals = 1 + inp.params.length + inp.numLocal ∧
    ur.indices = compute_indices 0 inp.params ∧
    ∃ rels0 rbp,
      add_outlives_bounds (compute_indices 0 inp.params) ⟨⟨[]⟩, ⟨[]⟩⟩ [] inp.facts =
        some (rels0, rbp) ∧
      ur.relations = (List.range (1 + inp.params.length + inp.numLocal)).foldl
        (fun rs fr =>
          (rs.relate_universal_regions fr fr).relate_universal_regions 0 fr)
        rels0 ∧
      ur.region_bound_pairs = rbp := by
  simp only [build, FIRST_GLOBAL_INDEX] at h
  cases hm : add_outlives_bounds (compute_indices 0 inp.params) ⟨⟨[]⟩, ⟨[]⟩⟩ [] inp.facts with
  | none =>
    rw [hm] at h
    exact Option.noConfusion h
  | some pr =>
    obtain ⟨rels0, rbp⟩ := pr
    rw [hm] at h
    injection h with h
    subst h
    exact ⟨rfl, rfl, rfl, rfl, rfl, rels0, rbp, rfl, rfl, rfl⟩

theorem foldl_relate_preserves {l : List Nat} {rs : UniversalRegionRelations}
    {p : Nat × Nat} (h : p ∈ rs.outlives.edges) :
    p ∈ (l.foldl (fun rs fr =>
      (rs.relate_universal_regions fr fr).relate_universal_regions 0 fr) rs).outlives.edges := by
  induction l generalizing rs with
  | nil => exact h
  | cons y ys ih =>
    rw [List.foldl_cons]
    exact ih (mem_add_of_mem (mem_add_of_mem h y y) 0 y)

theorem foldl_relate_establishes (rs : UniversalRegionRelations) {l : List Nat}
    {x : Nat} (hx : x ∈ l) :
    (x, x) ∈ (l.foldl (fun rs fr =>
      (rs.relate_universal_regions fr fr).relate_universal_regions 0 fr) rs).outlives.edges ∧
    (0, x) ∈ (l.foldl (fun rs fr =>
      (rs.relate_universal_regions fr fr).relate_universal_regions 0 fr) rs).outlives.edges := by
  induction l generalizing rs with
  | nil => cases hx
  | cons y ys ih =>
    rw [List.foldl_cons]
    rcases List.mem_cons.mp hx with rfl | hys
    · constructor
      · exact foldl_relate_preserves (mem_add_of_mem (mem_add_self _ x x) 0 x)
      · exact foldl_relate_preserves (mem_add_self _ 0 x)
    · exact ih _ hys

/-- For every construction result, the classification of a region
identity is determined by its position against the three boundaries. -/
theorem classification_eq (ur : UniversalRegions) (r : Nat) :
    ur.region_classification r =
      if r < ur.first_extern_index then some RegionClassification.Global
      else if r < ur.first_local_index then some RegionClassification.External
      else if r < ur.num_universals then some RegionClassification.Local
      else none := by
  unfold UniversalRegions.region_classification FIRST_GLOBAL_INDEX
  split_ifs <;> first | rfl | omega

/-- C1: for every constructed UniversalRegions set, the global region is
identity 0 and classified Global; classification totally and disjointly
partitions the identity range into the Global segment (exactly the
single identity 0), the External segment, and the Local segment, and
returns none outside the range. -/
theorem c1_static_zero_and_partition {inp : BuildInput} {ur : UniversalRegions}
    (h : build inp = some ur) :
    ur.fr_static = 0 ∧
    ur.region_classification ur.fr_static = some RegionClassification.Global ∧
    (∀ r : Nat, ur.region_classification r = some RegionClassification.Global ↔ r = 0) ∧
    (∀ r : Nat, ur.region_classification r = some RegionClassification.External ↔
      1 ≤ r ∧ r < ur.first_local_index) ∧
    (∀ r : Nat, ur.region_classification r = some RegionClassification.Local ↔
      ur.first_local_index ≤ r ∧ r < ur.num_universals) ∧
    (∀ r : Nat, ur.region_classification r = none ↔ ur.num_universals ≤ r) := by
  obtain ⟨hst, hfe, hfl, hnum, -⟩ := build_some_elim h
  have hord1 : ur.first_extern_index ≤ ur.first_local_index := by omega
  have hord2 : ur.first_local_index ≤ ur.num_universals := by omega
  refine ⟨hst, ?_, ?_, ?_, ?_, ?_⟩
  · rw [classification_eq, hst, hfe]
    simp
  · intro r
    rw [classification_eq, hfe]
    split_ifs with h1 h2 h3 <;> simp <;> omega
  · intro r
    rw [classification_eq, hfe]
    split_ifs with h1 h2 h3 <;> simp <;> omega
  · intro r
    rw [classification_eq, hfe]
    split_ifs with h1 h2 h3 <;> simp <;> omega
  · intro r
    rw [classification_eq, hfe]
    split_ifs with h1 h2 h3 <;> simp <;> omega

/-- C2: for every identity allocated by a construction, the outlives
query reports that the identity outlives itself and that the global
region outlives it. -/
theorem c2_reflexive_and_static_outlives {inp : BuildInput} {ur : UniversalRegions}
    (h : build inp = some ur) (x : Nat) (hx : x < ur.num_universals) :
    ur.outlives x x = true ∧ ur.outlives ur.fr_static x = true := by
  obtain ⟨hst, -, -, hnum, -, rels0, rbp, -, hrels, -⟩ := build_some_elim h
  have hxmem : x ∈ List.range (1 + inp.params.length + inp.numLocal) := by
    rw [List.mem_range]
    omega
  have hedges := foldl_relate_establishes rels0 hxmem
  rw [← hrels] at hedges
  unfold UniversalRegions.outlives
  rw [hst]
  exact ⟨contains_of_mem_edges hedges.1, contains_of_mem_edges hedges.2⟩

/-- C3: non_local_upper_bound never returns a Local-classified identity
(the search is total by well-founded recursion on the parents height),
and an empty postdominator result is mapped to the global region. -/
theorem c3_upper_bound_not_local {inp : BuildInput} {ur : UniversalRegions}
    (h : build inp = some ur) (fr : Nat) :
    ur.region_classification (ur.non_local_upper_bound fr) ≠
      some RegionClassification.Local ∧
    (ur.relations.inverse_outlives.mutual_immediate_postdominator
        (nonLocalBoundLoop ur ur.relations.inverse_outlives [fr] []) = none →
      ur.non_local_upper_bound fr = ur.fr_static) := by
  obtain ⟨hst, hfe, -⟩ := build_some_elim h
  have hstatic : ur.region_classification ur.fr_static = some RegionClassification.Global := by
    rw [classification_eq, hst, hfe]
    simp
  simp only [UniversalRegions.non_local_upper_bound, UniversalRegions.non_local_bound]
  cases hpd : ur.relations.inverse_outlives.mutual_immediate_postdominator
      (nonLocalBoundLoop ur ur.relations.inverse_outlives [fr] []) with
  | none =>
    refine ⟨?_, fun _ => rfl⟩
    simp [hstatic]
  | some p =>
    refine ⟨?_, fun hcontra => Option.noConfusion hcontra⟩
    cases hl : ur.is_local_free_region p with
    | false =>
      simp only [hl, Bool.not_false, Option.some_bind, if_pos rfl, Option.getD_some]
      unfold UniversalRegions.is_local_free_region at hl
      simpa using hl
    | true =>
      simp [hl, hstatic]

theorem find?_eq_of_nodup_keys {l : List (Region × Nat)} {k : Region} {v : Nat}
    (hnd : (l.map Prod.fst).Nodup) (hm : (k, v) ∈ l) :
    l.find? (fun kv => kv.1 == k) = some (k, v) := by
  induction l with
  | nil => cases hm
  | cons hd tl ih =>
    rw [List.map_cons, List.nodup_cons] at hnd
    rcases List.mem_cons.mp hm with heq | htl
    · rw [← heq]
      rw [List.find?_cons_of_pos]
      simp
    · have hk : k ∈ tl.map Prod.fst := List.mem_map.mpr ⟨(k, v), htl, rfl⟩
      have hne : hd.1 ≠ k := by
        intro e
        rw [e] at hnd
        exact hnd.1 hk
      rw [List.find?_cons_of_neg, ih hnd.2 htl]
      simp [hne]

theorem compute_indices_keys_nodup {params : List Nat} (hnd : params.Nodup) :
    (((compute_indices 0 params).indices).map Prod.fst).Nodup := by
  unfold compute_indices
  rw [List.map_cons, List.nodup_cons]
  constructor
  · simp
  · rw [List.map_map]
    have heq : (Prod.fst ∘ fun pi : Nat × Nat => (Region.ReEarlyBound pi.2, pi.1 + 1)) =
        (Region.ReEarlyBound ∘ Prod.snd) := by
      funext pi
      rfl
    rw [heq, ← List.map_map, List.enum_map_snd]
    exact hnd.map (fun a b hab => Region.ReEarlyBound.inj hab)

/-- C7: region-to-identity translation is a deterministic round trip:
an identity-form region translates to itself, the static region
translates to the static identity, and a mapped early-bound region
translates to its stored identity (the map has one entry per parameter,
so every call within one construction yields that same identity). -/
theorem c7_translation_round_trip {inp : BuildInput} {ur : UniversalRegions}
    (hnd : inp.params.Nodup) (h : build inp = some ur) (p i : Nat)
    (hm : (Region.ReEarlyBound p, i) ∈ ur.indices.indices) :
    (∀ v, ur.to_region_vid (Region.ReVar v) = some v) ∧
    ur.to_region_vid Region.ReStatic = some ur.fr_static ∧
    ur.to_region_vid (Region.ReEarlyBound p) = some i := by
  obtain ⟨hst, -, -, -, hidx, -⟩ := build_some_elim h
  refine ⟨fun v => rfl, ?_, ?_⟩
  · unfold UniversalRegions.to_region_vid UniversalRegionIndices.to_region_vid
    rw [hidx, hst]
    unfold compute_indices
    rw [List.find?_cons_of_pos]
    · rfl
    · simp
  · unfold UniversalRegions.to_region_vid UniversalRegionIndices.to_region_vid
    rw [hidx] at hm ⊢
    rw [find?_eq_of_nodup_keys (compute_indices_keys_nodup hnd) hm]
    rfl

/-- C8: translating a region that is neither the global region, nor a
mapped early-bound region, nor already in identity form, is a fatal
internal error (embedded as none): the bug call for non-canonical
shapes, and the unwrap panic for an unmapped early-bound region. -/
theorem c8_unmapped_translation_fatal {inp : BuildInput} {ur : UniversalRegions}
    (h : build inp = some ur) (p : Nat)
    (hp : ∀ kv ∈ ur.indices.indices, kv.1 ≠ Region.ReEarlyBound p) :
    (∀ k, ur.to_region_vid (Region.ReOther k) = none) ∧
    ur.to_region_vid (Region.ReEarlyBound p) = none := by
  refine ⟨fun k => rfl, ?_⟩
  unfold UniversalRegions.to_region_vid UniversalRegionIndices.to_region_vid
  have hfind : ur.indices.indices.find? (fun kv => kv.1 == Region.ReEarlyBound p) = none := by
    rw [List.find?_eq_none]
    intro kv hkv
    simp [hp kv hkv]
  rw [hfind]
  rfl

/-- C10: every relate operation records its fact symmetrically in both
graphs, so after any operation sequence a direct forward edge (a, b)
exists exactly when the inverse graph holds (b, a); and a
region-sub-region fact, r1 outlived by r2, is inserted as r2 outlives
r1 (forward edge (v2, v1), inverse edge (v1, v2)). -/
theorem c10_symmetric_insertion (ops : List (Nat × Nat)) (a b : Nat)
    (idx : UniversalRegionIndices) (r1 r2 : Region) (v1 v2 : Nat)
    (h1 : idx.to_region_vid r1 = some v1) (h2 : idx.to_region_vid r2 = some v2)
    (rbp : List (Region × GenericKind)) :
    ((a, b) ∈ (apply_relates ⟨⟨[]⟩, ⟨[]⟩⟩ ops).outlives.edges ↔
      (b, a) ∈ (apply_relates ⟨⟨[]⟩, ⟨[]⟩⟩ ops).inverse_outlives.edges) ∧
    add_outlives_bounds idx (apply_relates ⟨⟨[]⟩, ⟨[]⟩⟩ ops) rbp
        [OutlivesBound.RegionSubRegion r1 r2] =
      some ((apply_relates ⟨⟨[]⟩, ⟨[]⟩⟩ ops).relate_universal_regions v2 v1, rbp) ∧
    (v2, v1) ∈ ((apply_relates ⟨⟨[]⟩, ⟨[]⟩⟩ ops).relate_universal_regions v2 v1).outlives.edges ∧
    (v1, v2) ∈ ((apply_relates ⟨⟨[]⟩, ⟨[]⟩⟩ ops).relate_universal_regions v2 v1).inverse_outlives.edges := by
  refine ⟨apply_relates_symm edgeSymmetric_empty ops a b, ?_, ?_, ?_⟩
  · simp only [add_outlives_bounds]
    rw [h1, h2]
  · exact mem_add_self _ v2 v1
  · exact mem_add_self _ v1 v2

/-- A concrete construction input used by the witnesses: one early-bound
parameter (number 7), one liberated late-bound region, and one declared
bound saying the parameter region is outlived by the static region. -/
def exampleInput : BuildInput :=
  ⟨[7], 1, [OutlivesBound.RegionSubRegion (Region.ReEarlyBound 7) Region.ReStatic]⟩

/-- The snapshot the construction produces on exampleInput. -/
def exampleUR : UniversalRegions :=
  ⟨⟨[(Region.ReStatic, 0), (Region.ReEarlyBound 7, 1)]⟩, 0, 1, 2, 3, [],
    ⟨⟨[(0, 1), (0, 0), (1, 1), (2, 2), (0, 2)]⟩,
     ⟨[(1, 0), (0, 0), (1, 1), (2, 2), (2, 0)]⟩⟩⟩

/-- A snapshot with a two-step direct chain, used by the C4 witness. -/
def exampleUR2 : UniversalRegions :=
  ⟨⟨[]⟩, 0, 1, 1, 3, [], ⟨⟨[(5, 6), (6, 7)]⟩, ⟨[]⟩⟩⟩

/-- Witness for C1 at the concrete construction. -/
theorem c1_witness :
    exampleUR.fr_static = 0 ∧
    exampleUR.region_classification exampleUR.fr_static = some RegionClassification.Global ∧
    (∀ r : Nat, exampleUR.region_classification r = some RegionClassification.Global ↔ r = 0) ∧
    (∀ r : Nat, exampleUR.region_classification r = some RegionClassification.External ↔
      1 ≤ r ∧ r < exampleUR.first_local_index) ∧
    (∀ r : Nat, exampleUR.region_classification r = some RegionClassification.Local ↔
      exampleUR.first_local_index ≤ r ∧ r < exampleUR.num_universals) ∧
    (∀ r : Nat, exampleUR.region_classification r = none ↔ exampleUR.num_universals ≤ r) :=
  c1_static_zero_and_partition (by decide : build exampleInput = some exampleUR)

/-- Witness for C2 at the concrete construction. -/
theorem c2_witness :
    exampleUR.outlives 2 2 = true ∧ exampleUR.outlives exampleUR.fr_static 2 = true :=
  c2_reflexive_and_static_outlives
    (by decide : build exampleInput = some exampleUR) 2 (by decide)

/-- Witness for C3 at the concrete construction. -/
theorem c3_witness :
    exampleUR.region_classification (exampleUR.non_local_upper_bound 2) ≠
      some RegionClassification.Local ∧
    (exampleUR.relations.inverse_outlives.mutual_immediate_postdominator
        (nonLocalBoundLoop exampleUR exampleUR.relations.inverse_outlives [2] []) = none →
      exampleUR.non_local_upper_bound 2 = exampleUR.fr_static) :=
  c3_upper_bound_not_local (by decide : build exampleInput = some exampleUR) 2

/-- Witness for C4 on a concrete two-step chain. -/
theorem c4_witness : exampleUR2.outlives 5 7 = true :=
  c4_outlives_transitive exampleUR2 5 6 7 (by decide) (by decide)

/-- Witness for C7 at the concrete construction. -/
theorem c7_witness :
    (∀ v, exampleUR.to_region_vid (Region.ReVar v) = some v) ∧
    exampleUR.to_region_vid Region.ReStatic = some exampleUR.fr_static ∧
    exampleUR.to_region_vid (Region.ReEarlyBound 7) = some 1 :=
  c7_translation_round_trip (by decide)
    (by decide : build exampleInput = some exampleUR) 7 1 (by decide)

/-- Witness for C8 at the concrete construction, with an unmapped
early-bound region number. -/
theorem c8_witness :
    (∀ k, exampleUR.to_region_vid (Region.ReOther k) = none) ∧
    exampleUR.to_region_vid (Region.ReEarlyBound 9) = none :=
  c8_unmapped_translation_fatal
    (by decide : build exampleInput = some exampleUR) 9 (by decide)

/-- Witness for C10 on a concrete operation sequence and fact. -/
theorem c10_witness :
    ((1, 2) ∈ (apply_relates ⟨⟨[]⟩, ⟨[]⟩⟩ [(1, 2)]).outlives.edges ↔
      (2, 1) ∈ (apply_relates ⟨⟨[]⟩, ⟨[]⟩⟩ [(1, 2)]).inverse_outlives.edges) ∧
    add_outlives_bounds ⟨[(Region.ReStatic, 0)]⟩ (apply_relates ⟨⟨[]⟩, ⟨[]⟩⟩ [(1, 2)]) []
        [OutlivesBound.RegionSubRegion Region.ReStatic (Region.ReVar 5)] =
      some ((apply_relates ⟨⟨[]⟩, ⟨[]⟩⟩ [(1, 2)]).relate_universal_regions 5 0, []) ∧
    (5, 0) ∈ ((apply_relates ⟨⟨[]⟩, ⟨[]⟩⟩ [(1, 2)]).relate_universal_regions 5 0).outlives.edges ∧
    (0, 5) ∈ ((apply_relates ⟨⟨[]⟩, ⟨[]⟩⟩ [(1, 2)]).relate_universal_regions 5 0).inverse_outlives.edges :=
  c10_symmetric_insertion [(1, 2)] 1 2 ⟨[(Region.ReStatic, 0)]⟩
    Region.ReStatic (Region.ReVar 5) 0 5 (by decide) (by decide) []
